import Mathlib

/-!
Verification of the read/poll/decode pipeline of `inotify_simple`.

Byte buffers are modelled as `List Nat` (each element a byte value < 256).
Machine integers are modelled as `Nat` / `Int` with explicit reductions
modulo 2^32 where the binary layout matters.  `os.fsdecode` is a fixed
injective transform applied to the raw name bytes after truncation at the
first NUL; both decoders apply it identically, so names are kept as raw
byte lists throughout.
-/

/-- Byte at index `i` of a buffer; positions past the end read as 0 (such
positions are only ever consulted under bounds guards mirroring the
`struct.unpack_from` bounds check). -/
def byteAt : List Nat → Nat → Nat
  | [], _ => 0
  | b :: _, 0 => b
  | _ :: l, i + 1 => byteAt l i

/-- Native-order (little-endian) unsigned 32-bit value at offset `i`,
as produced by `struct.unpack_from` format character I. -/
def readU32 (data : List Nat) (i : Nat) : Nat :=
  byteAt data i + 256 * byteAt data (i+1) + 65536 * byteAt data (i+2) +
    16777216 * byteAt data (i+3)

/-- Reinterpretation of an unsigned 32-bit value as a signed one
(two's complement), as done by `struct.unpack_from` format character i. -/
def toI32 (n : Nat) : Int := if n < 2^31 then (n : Int) else (n : Int) - 2^32

/-- Signed 32-bit value at offset `i`. -/
def readI32 (data : List Nat) (i : Nat) : Int := toI32 (readU32 data i)

/-- Python slice `data[a:b]` for `0 ≤ a ≤ b` (clamps at the end of the
buffer, never raises). -/
def pySlice (data : List Nat) (a b : Nat) : List Nat := (data.take b).drop a

/-- Truncation of a raw name field at the first NUL byte:
`data.split(b'\x00', 1)[0]`, i.e. the bytes strictly before the first 0,
or the whole list when no 0 occurs. -/
def nulTruncate (l : List Nat) : List Nat := l.takeWhile (fun b => b != 0)

/-- The `Event` namedtuple `(wd, mask, cookie, name)`; `name` is kept as the
raw bytes before `os.fsdecode`. -/
structure Event where
  wd : Int
  mask : Nat
  cookie : Nat
  name : List Nat
deriving Repr, DecidableEq

/-- One step structure of `parse_events` of `src/inotify_simple.py`
(lines 245-252), starting at offset `pos`:

    while pos < len(data):
        wd, mask, cookie, namesize = unpack_from('iIII', data, pos)
        pos += 16 + namesize
        name = data[pos - namesize : pos].split(b'\x00', 1)[0]
        events.append(Event(wd, mask, cookie, fsdecode(name)))

`none` models `struct.error` raised by `unpack_from` when fewer than 16
bytes remain at `pos`. -/
def parse_events_from (data : List Nat) (pos : Nat) : Option (List Event) :=
  if pos < data.length then
    if pos + 16 ≤ data.length then
      match parse_events_from data (pos + 16 + readU32 data (pos + 12)) with
      | none => none
      | some evs =>
          some (Event.mk (readI32 data pos) (readU32 data (pos + 4))
            (readU32 data (pos + 8))
            (nulTruncate (pySlice data (pos + 16)
              (pos + 16 + readU32 data (pos + 12)))) :: evs)
    else none
  else some []
termination_by data.length - pos
decreasing_by omega

/-- Decoder `parse_events` of `src/inotify_simple.py` (lines 234-252). -/
def parse_events (data : List Nat) : Option (List Event) :=
  parse_events_from data 0

/-- Model of `ctypes.c_buffer(init, size).value` for `init.length ≤ size`:
the buffer is `init` zero-padded to `size` bytes, and `.value` reads it as a
NUL-terminated C string (bytes up to the first NUL, or all `size` bytes if
none). -/
def cBufferValue (init : List Nat) (size : Nat) : List Nat :=
  ((init ++ List.replicate (size - init.length) 0).take size).takeWhile
    (fun b => b != 0)

/-- One step structure of the legacy `parse_events` of
`src/inotify_simple/inotify_simple.py` (lines 196-201):

    while offset < buffer_size:
        wd, mask, cookie, namesize = struct.unpack_from('iIII', data, offset)
        offset += 16
        name = _fsdecode(ctypes.c_buffer(data[offset:offset + namesize], namesize).value)
        offset += namesize
        events.append(Event(wd, mask, cookie, name)) -/
def parse_events_legacy_from (data : List Nat) (pos : Nat) : Option (List Event) :=
  if pos < data.length then
    if pos + 16 ≤ data.length then
      match parse_events_legacy_from data (pos + 16 + readU32 data (pos + 12)) with
      | none => none
      | some evs =>
          some (Event.mk (readI32 data pos) (readU32 data (pos + 4))
            (readU32 data (pos + 8))
            (cBufferValue (pySlice data (pos + 16)
              (pos + 16 + readU32 data (pos + 12)))
              (readU32 data (pos + 12))) :: evs)
    else none
  else some []
termination_by data.length - pos
decreasing_by omega

/-- Legacy decoder `parse_events` of `src/inotify_simple/inotify_simple.py`
(lines 182-202). -/
def parse_events_legacy (data : List Nat) : Option (List Event) :=
  parse_events_legacy_from data 0

/-! ## Synthetic encoders for the documented binary record layout -/

/-- Little-endian (native order on the target platform) 4-byte encoding of a
32-bit unsigned value. -/
def encodeU32 (n : Nat) : List Nat :=
  [n % 256, n / 256 % 256, n / 65536 % 256, n / 16777216 % 256]

/-- Two's-complement 4-byte encoding of a 32-bit signed value. -/
def encodeI32 (w : Int) : List Nat := encodeU32 (w % 2^32).toNat

/-- A raw kernel event record: the three header fields plus the raw name
field bytes exactly as stored after the 16-byte header (the header's
`name_length` field is the length of `nameField`). -/
structure RawRecord where
  wd : Int
  mask : Nat
  cookie : Nat
  nameField : List Nat

/-- Range constraints making a `RawRecord` representable in the layout. -/
def RawRecord.wf (r : RawRecord) : Prop :=
  -2^31 ≤ r.wd ∧ r.wd < 2^31 ∧ r.mask < 2^32 ∧ r.cookie < 2^32 ∧
    r.nameField.length < 2^32

/-- Encoding of one record in the documented layout: 16-byte header
(int32 wd, uint32 mask, uint32 cookie, uint32 name_length) followed by
exactly name_length bytes of name field. -/
def encodeRecord (r : RawRecord) : List Nat :=
  encodeI32 r.wd ++ (encodeU32 r.mask ++ (encodeU32 r.cookie ++
    (encodeU32 r.nameField.length ++ r.nameField)))

/-- Concatenation of encoded records into one buffer. -/
def encodeRecords : List RawRecord → List Nat
  | [] => []
  | r :: rs => encodeRecord r ++ encodeRecords rs

/-! ## Byte-level lemmas -/

theorem byteAt_append_right (l rest : List Nat) (i : Nat) :
    byteAt (l ++ rest) (l.length + i) = byteAt rest i := by
  induction l with
  | nil => simp [byteAt]
  | cons a l ih =>
      simpa [byteAt, Nat.succ_add] using ih

theorem byteAt_drop (data : List Nat) (pos i : Nat) :
    byteAt (data.drop pos) i = byteAt data (pos + i) := by
  induction data generalizing pos with
  | nil => simp [byteAt]
  | cons a d ih =>
      cases pos with
      | zero => simp
      | succ p => simpa [byteAt, Nat.succ_add] using ih p

theorem readU32_drop (data : List Nat) (pos i : Nat) :
    readU32 (data.drop pos) i = readU32 data (pos + i) := by
  simp [readU32, byteAt_drop, Nat.add_assoc]

theorem readU32_append_right (l rest : List Nat) (i : Nat) :
    readU32 (l ++ rest) (l.length + i) = readU32 rest i := by
  have h1 := byteAt_append_right l rest i
  have h2 := byteAt_append_right l rest (i + 1)
  have h3 := byteAt_append_right l rest (i + 2)
  have h4 := byteAt_append_right l rest (i + 3)
  simp only [readU32, ← Nat.add_assoc] at *
  omega

theorem readU32_encodeU32 (n : Nat) (rest : List Nat) (h : n < 2^32) :
    readU32 (encodeU32 n ++ rest) 0 = n := by
  simp only [readU32, encodeU32, List.cons_append, List.nil_append, byteAt]
  omega

theorem readU32_encodeU32_shift (n : Nat) (rest : List Nat) (i : Nat) :
    readU32 (encodeU32 n ++ rest) (4 + i) = readU32 rest i := by
  have : (encodeU32 n).length = 4 := rfl
  simpa [this, Nat.add_comm] using readU32_append_right (encodeU32 n) rest i

theorem toI32_emod (w : Int) (h1 : -2^31 ≤ w) (h2 : w < 2^31) :
    toI32 ((w % 2^32).toNat) = w := by
  unfold toI32
  split <;> omega

theorem pySlice_drop (data : List Nat) (pos a b : Nat) :
    pySlice (data.drop pos) a b = pySlice data (pos + a) (pos + b) := by
  unfold pySlice
  rw [List.take_drop, List.drop_drop]

theorem parse_events_from_drop_aux (k : Nat) : ∀ (data : List Nat) (pos : Nat),
    data.length - pos ≤ k →
    parse_events_from data pos = parse_events_from (data.drop pos) 0 := by
  induction k with
  | zero =>
      intro data pos h
      conv_lhs => rw [parse_events_from.eq_def]
      conv_rhs => rw [parse_events_from.eq_def]
      have h1 : ¬ pos < data.length := by omega
      have h2 : ¬ 0 < (data.drop pos).length := by
        simp only [List.length_drop]; omega
      rw [if_neg h1, if_neg h2]
  | succ n ih =>
      intro data pos h
      conv_lhs => rw [parse_events_from.eq_def]
      conv_rhs => rw [parse_events_from.eq_def]
      by_cases h1 : pos < data.length
      · have h1' : 0 < (data.drop pos).length := by
          simp only [List.length_drop]; omega
        by_cases h2 : pos + 16 ≤ data.length
        · have h2' : 0 + 16 ≤ (data.drop pos).length := by
            simp only [List.length_drop]; omega
          have hns : readU32 (data.drop pos) 12 = readU32 data (pos + 12) :=
            readU32_drop data pos 12
          have hwd : readI32 (data.drop pos) 0 = readI32 data pos := by
            simpa [readI32] using congrArg toI32 (readU32_drop data pos 0)
          have hmask : readU32 (data.drop pos) 4 = readU32 data (pos + 4) :=
            readU32_drop data pos 4
          have hcookie : readU32 (data.drop pos) 8 = readU32 data (pos + 8) :=
            readU32_drop data pos 8
          have hslice : pySlice (data.drop pos) 16 (16 + readU32 data (pos + 12)) =
              pySlice data (pos + 16) (pos + 16 + readU32 data (pos + 12)) := by
            rw [pySlice_drop]
            congr 1
            omega
          have hrec1 : parse_events_from data (pos + 16 + readU32 data (pos + 12)) =
              parse_events_from (data.drop (pos + 16 + readU32 data (pos + 12))) 0 := by
            apply ih
            omega
          have hrec2 : parse_events_from (data.drop pos) (16 + readU32 data (pos + 12)) =
              parse_events_from (data.drop (pos + 16 + readU32 data (pos + 12))) 0 := by
            rw [ih (data.drop pos) (16 + readU32 data (pos + 12))
              (by simp only [List.length_drop]; omega)]
            rw [List.drop_drop]
            congr 2
            omega
          rw [if_pos h1, if_pos h2, if_pos h1', if_pos h2']
          simp only [Nat.zero_add, hns, hwd, hmask, hcookie, hslice, hrec1, hrec2]
        · have h2' : ¬ 0 + 16 ≤ (data.drop pos).length := by
            simp only [List.length_drop]; omega
          rw [if_pos h1, if_neg h2, if_pos h1', if_neg h2']
      · have h1' : ¬ 0 < (data.drop pos).length := by
          simp only [List.length_drop]; omega
        rw [if_neg h1, if_neg h1']

theorem parse_events_from_drop (data : List Nat) (pos : Nat) :
    parse_events_from data pos = parse_events (data.drop pos) :=
  parse_events_from_drop_aux (data.length - pos) data pos le_rfl

theorem encodeRecord_length (r : RawRecord) :
    (encodeRecord r).length = 16 + r.nameField.length := by
  simp [encodeRecord, encodeI32, encodeU32]
  omega

theorem readHeader (w : Int) (m c ns : Nat) (tail : List Nat)
    (hw1 : -2^31 ≤ w) (hw2 : w < 2^31) (hm : m < 2^32) (hc : c < 2^32)
    (hns : ns < 2^32) :
    readI32 (encodeI32 w ++ (encodeU32 m ++ (encodeU32 c ++
        (encodeU32 ns ++ tail)))) 0 = w ∧
    readU32 (encodeI32 w ++ (encodeU32 m ++ (encodeU32 c ++
        (encodeU32 ns ++ tail)))) 4 = m ∧
    readU32 (encodeI32 w ++ (encodeU32 m ++ (encodeU32 c ++
        (encodeU32 ns ++ tail)))) 8 = c ∧
    readU32 (encodeI32 w ++ (encodeU32 m ++ (encodeU32 c ++
        (encodeU32 ns ++ tail)))) 12 = ns := by
  have hwmod : (w % 2^32).toNat < 2^32 := by omega
  refine ⟨?_, ?_, ?_, ?_⟩
  · simp only [readI32, encodeI32]
    rw [readU32_encodeU32 _ _ hwmod]
    exact toI32_emod w hw1 hw2
  · simp only [encodeI32]
    rw [show (4 : Nat) = 4 + 0 from rfl, readU32_encodeU32_shift,
      readU32_encodeU32 _ _ hm]
  · simp only [encodeI32]
    rw [show (8 : Nat) = 4 + 4 from rfl, readU32_encodeU32_shift,
      show (4 : Nat) = 4 + 0 from rfl, readU32_encodeU32_shift,
      readU32_encodeU32 _ _ hc]
  · simp only [encodeI32]
    rw [show (12 : Nat) = 4 + 8 from rfl, readU32_encodeU32_shift,
      show (8 : Nat) = 4 + 4 from rfl, readU32_encodeU32_shift,
      show (4 : Nat) = 4 + 0 from rfl, readU32_encodeU32_shift,
      readU32_encodeU32 _ _ hns]

theorem parse_events_encodeRecord (r : RawRecord) (rest : List Nat)
    (hwf : r.wf) :
    parse_events (encodeRecord r ++ rest) =
      (parse_events rest).map
        (fun evs => Event.mk r.wd r.mask r.cookie (nulTruncate r.nameField) :: evs) := by
  obtain ⟨hw1, hw2, hm, hc, hns⟩ := hwf
  have hform : encodeRecord r ++ rest =
      encodeI32 r.wd ++ (encodeU32 r.mask ++ (encodeU32 r.cookie ++
        (encodeU32 r.nameField.length ++ (r.nameField ++ rest)))) := by
    simp [encodeRecord, List.append_assoc]
  have hlen : (encodeRecord r ++ rest).length =
      16 + r.nameField.length + rest.length := by
    simp [encodeRecord_length]
  obtain ⟨hH1, hH2, hH3, hH4⟩ := readHeader r.wd r.mask r.cookie
    r.nameField.length (r.nameField ++ rest) hw1 hw2 hm hc hns
  rw [← hform] at hH1 hH2 hH3 hH4
  conv_lhs => rw [parse_events, parse_events_from.eq_def]
  have h1 : 0 < (encodeRecord r ++ rest).length := by omega
  have h2 : 0 + 16 ≤ (encodeRecord r ++ rest).length := by omega
  rw [if_pos h1, if_pos h2]
  simp only [Nat.zero_add, hH1, hH2, hH3, hH4]
  have hdrop : (encodeRecord r ++ rest).drop (16 + r.nameField.length) = rest :=
    List.drop_left' (encodeRecord_length r)
  have hrec : parse_events_from (encodeRecord r ++ rest)
      (16 + r.nameField.length) = parse_events rest := by
    rw [parse_events_from_drop, hdrop]
  have hslice : pySlice (encodeRecord r ++ rest) 16 (16 + r.nameField.length) =
      r.nameField := by
    unfold pySlice
    rw [List.take_left' (encodeRecord_length r)]
    have hsplit : encodeRecord r =
        (encodeI32 r.wd ++ encodeU32 r.mask ++ encodeU32 r.cookie ++
          encodeU32 r.nameField.length) ++ r.nameField := by
      simp [encodeRecord, List.append_assoc]
    rw [hsplit]
    exact List.drop_left' (by simp [encodeI32, encodeU32])
  rw [hslice, hrec]
  cases parse_events rest <;> rfl

/-! ## Records carrying a logical (NUL-free) name plus NUL padding -/

/-- A record as the kernel emits it for a filename: a NUL-free logical name
followed by `pad` bytes of NUL padding inside the name field. -/
structure NamedRecord where
  wd : Int
  mask : Nat
  cookie : Nat
  name : List Nat
  pad : Nat

/-- The raw record stored for a named record. -/
def NamedRecord.raw (r : NamedRecord) : RawRecord :=
  ⟨r.wd, r.mask, r.cookie, r.name ++ List.replicate r.pad 0⟩

/-- Representable ranges and a NUL-free name. -/
def NamedRecord.wf (r : NamedRecord) : Prop :=
  r.raw.wf ∧ 0 ∉ r.name

/-- The event a named record denotes. -/
def NamedRecord.event (r : NamedRecord) : Event :=
  ⟨r.wd, r.mask, r.cookie, r.name⟩

/-- Buffer holding the encodings of a list of named records. -/
def encodeNamed (rs : List NamedRecord) : List Nat :=
  encodeRecords (rs.map NamedRecord.raw)

theorem nulTruncate_name_pad (name : List Nat) (pad : Nat) (h : 0 ∉ name) :
    nulTruncate (name ++ List.replicate pad 0) = name := by
  induction name with
  | nil =>
      cases pad with
      | zero => rfl
      | succ p => simp [nulTruncate, List.replicate_succ]
  | cons b bs ih =>
      simp only [List.mem_cons, not_or] at h
      have hb : (b != 0) = true := by
        simp only [bne_iff_ne]
        exact fun hb0 => h.1 (hb0 ▸ rfl)
      simp only [nulTruncate, List.cons_append, List.takeWhile_cons, hb,
        if_true]
      exact congrArg (b :: ·) (ih h.2)

theorem parse_events_encodeNamed (rs : List NamedRecord)
    (hwf : ∀ r ∈ rs, r.wf) :
    parse_events (encodeNamed rs) = some (rs.map NamedRecord.event) := by
  induction rs with
  | nil =>
      have h0 : encodeNamed [] = [] := rfl
      rw [h0, parse_events, parse_events_from.eq_def]
      simp
  | cons r rs ih =>
      have hr := hwf r (by simp)
      have hrs : ∀ x ∈ rs, x.wf := fun x hx => hwf x (by simp [hx])
      have hsplit : encodeNamed (r :: rs) = encodeRecord r.raw ++ encodeNamed rs := rfl
      rw [hsplit, parse_events_encodeRecord r.raw (encodeNamed rs) hr.1, ih hrs]
      simp only [Option.map_some, List.map_cons]
      have : nulTruncate r.raw.nameField = r.name :=
        nulTruncate_name_pad r.name r.pad hr.2
      simp [NamedRecord.event, NamedRecord.raw] at this ⊢
      simp [this]

/-! ## Structural evaluator for concrete buffers -/

/-- Fuel-bounded twin of `parse_events_from`; with fuel at least
`data.length - pos` it agrees with `parse_events_from` and, being structural
recursion, evaluates by `decide` on concrete buffers. -/
def parse_events_fuel (data : List Nat) : Nat → Nat → Option (List Event)
  | pos, 0 => if pos < data.length then none else some []
  | pos, fuel + 1 =>
      if pos < data.length then
        if pos + 16 ≤ data.length then
          match parse_events_fuel data (pos + 16 + readU32 data (pos + 12)) fuel with
          | none => none
          | some evs =>
              some (Event.mk (readI32 data pos) (readU32 data (pos + 4))
                (readU32 data (pos + 8))
                (nulTruncate (pySlice data (pos + 16)
                  (pos + 16 + readU32 data (pos + 12)))) :: evs)
        else none
      else some []

theorem parse_events_fuel_spec (fuel : Nat) : ∀ (data : List Nat) (pos : Nat),
    data.length - pos ≤ fuel →
    parse_events_from data pos = parse_events_fuel data pos fuel := by
  induction fuel with
  | zero =>
      intro data pos h
      have h1 : ¬ pos < data.length := by omega
      rw [parse_events_from.eq_def, parse_events_fuel]
      rw [if_neg h1, if_neg h1]
  | succ n ih =>
      intro data pos h
      rw [parse_events_from.eq_def, parse_events_fuel]
      by_cases h1 : pos < data.length
      · by_cases h2 : pos + 16 ≤ data.length
        · rw [ih data (pos + 16 + readU32 data (pos + 12)) (by omega)]
        · rw [if_pos h1, if_pos h1, if_neg h2, if_neg h2]
      · rw [if_neg h1, if_neg h1]

theorem parse_events_eval (data : List Nat) :
    parse_events data = parse_events_fuel data 0 data.length :=
  parse_events_fuel_spec data.length data 0 (by omega)

instance (r : RawRecord) : Decidable r.wf := by
  unfold RawRecord.wf; infer_instance

instance (r : NamedRecord) : Decidable r.wf := by
  unfold NamedRecord.wf; infer_instance

theorem parse_events_nil : parse_events [] = some [] := by
  rw [parse_events_eval]
  rfl

/-- C1: for every sequence of N ≥ 1 event records encoded in the documented
binary layout (16-byte native-order header of int32 wd, uint32 mask, uint32
cookie, uint32 name_length, followed by exactly name_length bytes of
NUL-padded name) concatenated into one buffer, `parse_events` returns exactly
the N `Event` records whose wd, mask, cookie and name equal the encoded
fields, in the order the records appear in the buffer. -/
theorem C1_parse_events_inverts_encoding (rs : List NamedRecord)
    (hN : 1 ≤ rs.length) (hwf : ∀ r ∈ rs, r.wf) :
    parse_events (encodeNamed rs) = some (rs.map NamedRecord.event) :=
  parse_events_encodeNamed rs hwf

/-- Witness: C1 applied to a concrete two-record buffer (a CREATE event for
name "foo" with one byte of NUL padding, then a nameless event with a
negative watch descriptor). -/
theorem C1_parse_events_inverts_encoding_witness :
    (1 ≤ ([⟨1, 256, 0, [102, 111, 111], 1⟩, ⟨-2, 5, 7, [], 0⟩] :
        List NamedRecord).length) ∧
    parse_events (encodeNamed
        [⟨1, 256, 0, [102, 111, 111], 1⟩, ⟨-2, 5, 7, [], 0⟩]) =
      some [⟨1, 256, 0, [102, 111, 111]⟩, ⟨-2, 5, 7, []⟩] :=
  ⟨by decide,
    (C1_parse_events_inverts_encoding
      [⟨1, 256, 0, [102, 111, 111], 1⟩, ⟨-2, 5, 7, [], 0⟩]
      (by decide) (by decide)).trans (by decide)⟩

theorem nulTruncate_of_not_mem (l : List Nat) (h : 0 ∉ l) :
    nulTruncate l = l := by
  have := nulTruncate_name_pad l 0 h
  simpa using this

theorem nulTruncate_append_nul (a b : List Nat) (h : 0 ∉ a) :
    nulTruncate (a ++ 0 :: b) = a := by
  induction a with
  | nil => simp [nulTruncate]
  | cons x xs ih =>
      simp only [List.mem_cons, not_or] at h
      have hx : (x != 0) = true := by
        simp only [bne_iff_ne]
        exact fun h0 => h.1 (h0 ▸ rfl)
      simp only [nulTruncate, List.cons_append, List.takeWhile_cons, hx,
        if_true]
      exact congrArg (x :: ·) (ih h.2)

/-- C3: for every decoded record the `Event` name is obtained from the
name_length trailing bytes by taking exactly the bytes before the first NUL
(all of them when no NUL occurs); a record with name_length = 0 or whose
name field starts with a NUL yields an empty name. -/
theorem C3_name_nul_truncation (r : RawRecord) (hwf : r.wf) :
    parse_events (encodeRecord r) =
      some [Event.mk r.wd r.mask r.cookie (nulTruncate r.nameField)] ∧
    (0 ∉ r.nameField → nulTruncate r.nameField = r.nameField) ∧
    (∀ a b, r.nameField = a ++ 0 :: b → 0 ∉ a → nulTruncate r.nameField = a) ∧
    (r.nameField = [] → nulTruncate r.nameField = []) ∧
    (∀ tail, r.nameField = 0 :: tail → nulTruncate r.nameField = []) := by
  refine ⟨?_, nulTruncate_of_not_mem r.nameField, ?_, ?_, ?_⟩
  · have h := parse_events_encodeRecord r [] hwf
    rw [List.append_nil, parse_events_nil] at h
    simpa using h
  · intro a b hab ha
    rw [hab]
    exact nulTruncate_append_nul a b ha
  · intro h0
    rw [h0]
    rfl
  · intro tail htail
    rw [htail]
    rfl

/-- Witness: C3 applied to a record whose name field is "a" NUL "b": the
decoded name is just "a"; the remaining conjuncts are checked at the same
record. -/
theorem C3_name_nul_truncation_witness :
    RawRecord.wf ⟨3, 2, 9, [97, 0, 98]⟩ ∧
    parse_events (encodeRecord ⟨3, 2, 9, [97, 0, 98]⟩) =
      some [Event.mk 3 2 9 [97]] :=
  ⟨by decide,
    ((C3_name_nul_truncation ⟨3, 2, 9, [97, 0, 98]⟩ (by decide)).1).trans
      (by decide)⟩

theorem parse_events_from_count (k : Nat) : ∀ (data : List Nat) (pos : Nat)
    (evs : List Event), data.length - pos ≤ k →
    parse_events_from data pos = some evs →
    16 * evs.length ≤ data.length - pos := by
  induction k with
  | zero =>
      intro data pos evs hk hp
      have h1 : ¬ pos < data.length := by omega
      rw [parse_events_from.eq_def, if_neg h1] at hp
      injection hp with hevs
      subst hevs
      simp
  | succ n ih =>
      intro data pos evs hk hp
      rw [parse_events_from.eq_def] at hp
      by_cases h1 : pos < data.length
      · by_cases h2 : pos + 16 ≤ data.length
        · rw [if_pos h1, if_pos h2] at hp
          cases hrec : parse_events_from data (pos + 16 + readU32 data (pos + 12)) with
          | none => rw [hrec] at hp; exact Option.noConfusion hp
          | some rest =>
              rw [hrec] at hp
              injection hp with hevs
              subst hevs
              have hb := ih data (pos + 16 + readU32 data (pos + 12)) rest
                (by omega) hrec
              simp only [List.length_cons]
              omega
        · rw [if_pos h1, if_neg h2] at hp
          exact Option.noConfusion hp
      · rw [if_neg h1] at hp
        injection hp with hevs
        subst hevs
        simp

/-- C9: `parse_events` is total (modelled as a terminating function on every
finite buffer), and when it succeeds each loop iteration consumed at least
the fixed 16-byte header, so the number of decoded events — equal to the
number of loop iterations — is at most `len(buffer) / 16`. -/
theorem C9_parse_events_terminates_bounded (data : List Nat)
    (evs : List Event) (h : parse_events data = some evs) :
    16 * evs.length ≤ data.length ∧ evs.length ≤ data.length / 16 := by
  have hb := parse_events_from_count data.length data 0 evs (by omega) h
  omega

/-- Witness: C9 applied to a concrete one-record 20-byte buffer. -/
theorem C9_parse_events_terminates_bounded_witness :
    parse_events [7, 0, 0, 0, 1, 0, 0, 0, 0, 0, 0, 0, 4, 0, 0, 0,
        102, 111, 111, 0] = some [Event.mk 7 1 0 [102, 111, 111]] ∧
    16 * 1 ≤ 20 ∧ 1 ≤ 20 / 16 :=
  have hp : parse_events [7, 0, 0, 0, 1, 0, 0, 0, 0, 0, 0, 0, 4, 0, 0, 0,
      102, 111, 111, 0] = some [Event.mk 7 1 0 [102, 111, 111]] := by
    rw [parse_events_eval]; decide
  ⟨hp, by
    have := C9_parse_events_terminates_bounded _ _ hp
    simpa using this⟩

/-! ## Exact characterization of decoding failure -/

/-- Characterization predicate: the decoding loop, started at `pos`, reaches
an offset with at least one but fewer than 16 bytes remaining (a truncated
header, the only situation in which `unpack_from` raises). -/
def truncatedHeader (data : List Nat) (pos : Nat) : Bool :=
  if pos < data.length then
    if pos + 16 ≤ data.length then
      truncatedHeader data (pos + 16 + readU32 data (pos + 12))
    else true
  else false
termination_by data.length - pos
decreasing_by omega

theorem parse_events_from_none_iff (k : Nat) : ∀ (data : List Nat) (pos : Nat),
    data.length - pos ≤ k →
    (parse_events_from data pos = none ↔ truncatedHeader data pos = true) := by
  induction k with
  | zero =>
      intro data pos h
      have h1 : ¬ pos < data.length := by omega
      rw [parse_events_from.eq_def, truncatedHeader.eq_def, if_neg h1, if_neg h1]
      simp
  | succ n ih =>
      intro data pos h
      rw [parse_events_from.eq_def, truncatedHeader.eq_def]
      by_cases h1 : pos < data.length
      · by_cases h2 : pos + 16 ≤ data.length
        · rw [if_pos h1, if_pos h1, if_pos h2, if_pos h2]
          rw [← ih data (pos + 16 + readU32 data (pos + 12)) (by omega)]
          cases parse_events_from data (pos + 16 + readU32 data (pos + 12)) <;> simp
        · rw [if_pos h1, if_pos h1, if_neg h2, if_neg h2]
          simp
      · rw [if_neg h1, if_neg h1]
        simp

theorem parse_events_encodeRecords (rs : List RawRecord)
    (hwf : ∀ r ∈ rs, r.wf) :
    ∃ evs, parse_events (encodeRecords rs) = some evs ∧
      evs.length = rs.length := by
  induction rs with
  | nil => exact ⟨[], parse_events_nil, rfl⟩
  | cons r rest ih =>
      obtain ⟨evs, hevs, hlen⟩ := ih (fun x hx => hwf x (by simp [hx]))
      refine ⟨Event.mk r.wd r.mask r.cookie (nulTruncate r.nameField) :: evs,
        ?_, by simp [hlen]⟩
      have hstep := parse_events_encodeRecord r (encodeRecords rest)
        (hwf r (by simp))
      rw [show encodeRecords (r :: rest) = encodeRecord r ++ encodeRecords rest
        from rfl, hstep, hevs]
      rfl

/-- C2 counterexample: the 16-byte buffer whose header declares
name_length = 4 but which ends immediately after the header is truncated
inside the trailing name bytes — it is not an exact concatenation of whole
records — yet `parse_events` succeeds on it (with an empty name) instead of
raising a decoding error. -/
theorem C2_counterexample_truncated_name_succeeds :
    parse_events [0, 0, 0, 0, 0, 0, 0, 0, 0, 0, 0, 0, 4, 0, 0, 0] =
      some [Event.mk 0 0 0 []] ∧
    ¬ ∃ rs : List RawRecord, (∀ r ∈ rs, r.wf) ∧
      ([0, 0, 0, 0, 0, 0, 0, 0, 0, 0, 0, 0, 4, 0, 0, 0] : List Nat) =
        encodeRecords rs := by
  constructor
  · rw [parse_events_eval]; decide
  · rintro ⟨rs, hwf, heq⟩
    cases rs with
    | nil => simp [encodeRecords] at heq
    | cons r rest =>
        have hlen := congrArg List.length heq
        rw [show encodeRecords (r :: rest) = encodeRecord r ++ encodeRecords rest
          from rfl] at hlen heq
        simp only [List.length_append, encodeRecord_length] at hlen
        have hlit : ([0, 0, 0, 0, 0, 0, 0, 0, 0, 0, 0, 0, 4, 0, 0, 0] :
            List Nat).length = 16 := by decide
        rw [hlit] at hlen
        have hnf : r.nameField.length = 0 := by omega
        have hrest : encodeRecords rest = [] :=
          List.length_eq_zero.mp (by omega)
        rw [hrest] at heq
        obtain ⟨hw1, hw2, hm, hc, hns⟩ := hwf r (by simp)
        have hh := (readHeader r.wd r.mask r.cookie r.nameField.length
          (r.nameField ++ []) hw1 hw2 hm hc hns).2.2.2
        have hform : encodeRecord r ++ [] =
            encodeI32 r.wd ++ (encodeU32 r.mask ++ (encodeU32 r.cookie ++
              (encodeU32 r.nameField.length ++ (r.nameField ++ [])))) := by
          simp [encodeRecord, List.append_assoc]
        rw [← hform, ← heq] at hh
        have h4 : readU32 [0, 0, 0, 0, 0, 0, 0, 0, 0, 0, 0, 0, 4, 0, 0, 0] 12
            = 4 := by decide
        omega

/-- C2 amended: `parse_events` raises a decoding error exactly when the
decoding loop reaches an offset with fewer than 16 bytes remaining but at
least one (a truncated header); it succeeds on every exact concatenation of
whole records, including the empty buffer.  (A buffer truncated inside the
trailing name bytes does not raise: the final name is silently truncated.) -/
theorem C2_amended_failure_characterization (data : List Nat) :
    (parse_events data = none ↔ truncatedHeader data 0 = true) ∧
    ((∃ rs : List RawRecord, (∀ r ∈ rs, r.wf) ∧ data = encodeRecords rs) →
      ∃ evs, parse_events data = some evs) ∧
    parse_events [] = some [] := by
  refine ⟨parse_events_from_none_iff data.length data 0 (by omega), ?_,
    parse_events_nil⟩
  rintro ⟨rs, hwf, rfl⟩
  obtain ⟨evs, hevs, -⟩ := parse_events_encodeRecords rs hwf
  exact ⟨evs, hevs⟩

/-- Witness: the amended C2 applied at a whole-record buffer (decoding
succeeds) and at a 3-byte buffer with a truncated header. -/
theorem C2_amended_failure_characterization_witness :
    (∃ evs, parse_events (encodeRecords [⟨0, 0, 0, []⟩]) = some evs) ∧
    (parse_events [1, 2, 3] = none ↔ truncatedHeader [1, 2, 3] 0 = true) :=
  ⟨(C2_amended_failure_characterization (encodeRecords [⟨0, 0, 0, []⟩])).2.1
      ⟨[⟨0, 0, 0, []⟩], by decide, rfl⟩,
    (C2_amended_failure_characterization [1, 2, 3]).1⟩

/-! ## Equivalence of the legacy and current decoders -/

theorem nulTruncate_append_replicate (l : List Nat) (k : Nat) :
    nulTruncate (l ++ List.replicate k 0) = nulTruncate l := by
  induction l with
  | nil =>
      cases k with
      | zero => rfl
      | succ p => simp [nulTruncate, List.replicate_succ]
  | cons b bs ih =>
      by_cases hb : (b != 0) = true
      · simp only [nulTruncate, List.cons_append, List.takeWhile_cons, hb,
          if_true] at ih ⊢
        exact congrArg (b :: ·) ih
      · simp only [Bool.not_eq_true] at hb
        simp [nulTruncate, List.takeWhile_cons, hb]

theorem cBufferValue_eq (init : List Nat) (size : Nat)
    (h : init.length ≤ size) :
    cBufferValue init size = nulTruncate init := by
  unfold cBufferValue
  rw [List.take_of_length_le (by simp; omega)]
  exact nulTruncate_append_replicate init (size - init.length)

theorem pySlice_length_le (data : List Nat) (a n : Nat) :
    (pySlice data a (a + n)).length ≤ n := by
  simp only [pySlice, List.length_drop, List.length_take]
  omega

theorem parse_events_legacy_from_eq (k : Nat) : ∀ (data : List Nat)
    (pos : Nat), data.length - pos ≤ k →
    parse_events_legacy_from data pos = parse_events_from data pos := by
  induction k with
  | zero =>
      intro data pos h
      have h1 : ¬ pos < data.length := by omega
      rw [parse_events_legacy_from.eq_def, parse_events_from.eq_def,
        if_neg h1, if_neg h1]
  | succ n ih =>
      intro data pos h
      rw [parse_events_legacy_from.eq_def, parse_events_from.eq_def]
      by_cases h1 : pos < data.length
      · by_cases h2 : pos + 16 ≤ data.length
        · rw [ih data (pos + 16 + readU32 data (pos + 12)) (by omega)]
          rw [cBufferValue_eq _ _ (pySlice_length_le data (pos + 16)
            (readU32 data (pos + 12)))]
        · rw [if_pos h1, if_pos h1, if_neg h2, if_neg h2]
      · rw [if_neg h1, if_neg h1]

/-- C10: the legacy decoder (which truncates the name via a NUL-terminated C
buffer) and the current decoder (which splits at the first NUL) are
extensionally equal: on every byte buffer on which both succeed they return
identical lists of `Event` records. -/
theorem C10_legacy_decoder_equivalent (data : List Nat)
    (evsA evsB : List Event)
    (hA : parse_events data = some evsA)
    (hB : parse_events_legacy data = some evsB) :
    evsA = evsB := by
  have heq : parse_events_legacy data = parse_events data :=
    parse_events_legacy_from_eq data.length data 0 (by omega)
  rw [heq, hA] at hB
  exact Option.some_injective _ hB

/-- Witness: both decoders evaluated on a concrete one-record buffer whose
name field is "ab" NUL NUL; both yield the same single event. -/
theorem C10_legacy_decoder_equivalent_witness :
    parse_events [5, 0, 0, 0, 2, 0, 0, 0, 0, 0, 0, 0, 4, 0, 0, 0,
        97, 98, 0, 0] = some [Event.mk 5 2 0 [97, 98]] ∧
    parse_events_legacy [5, 0, 0, 0, 2, 0, 0, 0, 0, 0, 0, 0, 4, 0, 0, 0,
        97, 98, 0, 0] = some [Event.mk 5 2 0 [97, 98]] ∧
    ([Event.mk 5 2 0 [97, 98]] : List Event) = [Event.mk 5 2 0 [97, 98]] :=
  have hA : parse_events [5, 0, 0, 0, 2, 0, 0, 0, 0, 0, 0, 0, 4, 0, 0, 0,
      97, 98, 0, 0] = some [Event.mk 5 2 0 [97, 98]] := by
    rw [parse_events_eval]; decide
  have hB : parse_events_legacy [5, 0, 0, 0, 2, 0, 0, 0, 0, 0, 0, 0,
      4, 0, 0, 0, 97, 98, 0, 0] = some [Event.mk 5 2 0 [97, 98]] := by
    unfold parse_events_legacy
    rw [parse_events_legacy_from_eq 20 _ 0 (by decide),
      parse_events_fuel_spec 20 _ 0 (by decide)]
    decide
  ⟨hA, hB, C10_legacy_decoder_equivalent _ _ _ hA hB⟩

/-! ## Flag vocabulary -/

/-- Bit values of the `flags` IntEnum of `src/inotify_simple.py`
(lines 255-281), in definition order: ACCESS, MODIFY, ATTRIB, CLOSE_WRITE,
CLOSE_NOWRITE, OPEN, MOVED_FROM, MOVED_TO, CREATE, DELETE, DELETE_SELF,
MOVE_SELF, UNMOUNT, Q_OVERFLOW, IGNORED, ONLYDIR, DONT_FOLLOW, EXCL_UNLINK,
MASK_ADD, ISDIR, ONESHOT. -/
def flagValues : List Nat :=
  [0x00000001, 0x00000002, 0x00000004, 0x00000008, 0x00000010, 0x00000020,
   0x00000040, 0x00000080, 0x00000100, 0x00000200, 0x00000400, 0x00000800,
   0x00002000, 0x00004000, 0x00008000,
   0x01000000, 0x02000000, 0x04000000, 0x20000000, 0x40000000, 0x80000000]

/-- Model of `flags.from_mask` (lines 283-286): iterate the defined flags in
definition order and keep those whose bitwise AND with `mask` is nonzero
(`flag & mask` is truthy). -/
def from_mask (mask : Nat) : List Nat :=
  flagValues.filter (fun flag => flag &&& mask != 0)

/-- C4: for every 32-bit mask, `flags.from_mask` returns exactly the defined
flags whose bit is set in the mask — membership requires being a defined
flag, mask 0 yields the empty list, the all-bits mask yields every flag —
and the result is strictly ascending in bit value (definition order). -/
theorem C4_from_mask_exact (mask : Nat) (hmask : mask < 2^32) :
    from_mask 0 = [] ∧
    from_mask (2^32 - 1) = flagValues ∧
    (from_mask mask).Pairwise (· < ·) ∧
    (∀ f, f ∈ from_mask mask ↔ f ∈ flagValues ∧ f &&& mask ≠ 0) ∧
    (∀ k, 2^k ∈ flagValues → (2^k ∈ from_mask mask ↔ mask.testBit k)) := by
  refine ⟨by decide, by decide, ?_, ?_, ?_⟩
  · exact List.Pairwise.filter _ (by decide)
  · intro f
    simp [from_mask, List.mem_filter]
  · intro k hk
    simp only [from_mask, List.mem_filter, hk, true_and, bne_iff_ne, ne_eq,
      decide_not]
    rw [Nat.two_pow_and]
    cases h : mask.testBit k <;> simp [h, Nat.pow_eq_zero]

/-- Witness: C4 applied at the concrete mask CREATE | IGNORED = 33024; the
result is exactly [CREATE, IGNORED] in ascending bit order. -/
theorem C4_from_mask_exact_witness :
    (33024 : Nat) < 2^32 ∧ (from_mask 33024).Pairwise (· < ·) ∧
    from_mask 33024 = [256, 32768] :=
  ⟨by decide, (C4_from_mask_exact 33024 (by decide)).2.2.1, by decide⟩

/-! ## Libc syscall adapter -/

/-- Errno value of EINTR on Linux. -/
def EINTR : Nat := 4

/-- Errno value of EBADF on Linux. -/
def EBADF : Nat := 9

/-- Outcome of `_libc_call`. -/
inductive LibcResult where
  | ret (rc : Int)
  | raised (errno : Nat) (msg : String)
deriving DecidableEq, Repr

/-- Model of `_libc_call` of `src/inotify_simple.py` (lines 34-42):

    while True:
        rc = function(*args)
        if rc != -1:
            return rc
        errno = get_errno()
        if errno != EINTR:
            raise OSError(errno, os.strerror(errno))

Each element of `results` is the pair (return code, errno after the call)
produced by one invocation of `function`, in order; `strerror` models
`os.strerror`.  The result is `none` when the modelled outcome list is
exhausted before the loop returns (the real loop would call `function`
again). -/
def libc_call (strerror : Nat → String) :
    List (Int × Nat) → Option LibcResult
  | [] => none
  | (rc, e) :: rest =>
      if rc ≠ -1 then some (.ret rc)
      else if e = EINTR then libc_call strerror rest
      else some (.raised e (strerror e))

theorem libc_call_replicate_eintr (strerror : Nat → String) (k : Nat)
    (l : List (Int × Nat)) :
    libc_call strerror (List.replicate k (-1, EINTR) ++ l) =
      libc_call strerror l := by
  induction k with
  | zero => rfl
  | succ n ih => simpa [List.replicate_succ, libc_call] using ih

/-- C5: `_libc_call` transparently retries on (-1, EINTR) and never surfaces
the interruption; a -1 return with any other errno raises an OSError carrying
that errno and its strerror text; any return value other than -1 is returned
unchanged immediately, with no retry. -/
theorem C5_libc_call_retry_policy (strerror : Nat → String) (k : Nat)
    (rc : Int) (e : Nat) (rest : List (Int × Nat)) :
    (rc ≠ -1 → libc_call strerror ((rc, e) :: rest) = some (.ret rc)) ∧
    (rc ≠ -1 → libc_call strerror
        (List.replicate k (-1, EINTR) ++ (rc, e) :: rest) = some (.ret rc)) ∧
    (e ≠ EINTR → libc_call strerror
        (List.replicate k (-1, EINTR) ++ (-1, e) :: rest) =
      some (.raised e (strerror e))) ∧
    (∀ l msg, libc_call strerror l ≠ some (.raised EINTR msg)) := by
  refine ⟨?_, ?_, ?_, ?_⟩
  · intro h
    simp [libc_call, h]
  · intro h
    rw [libc_call_replicate_eintr]
    simp [libc_call, h]
  · intro h
    rw [libc_call_replicate_eintr]
    simp [libc_call, h]
  · intro l
    induction l with
    | nil => simp [libc_call]
    | cons p rest ih =>
        intro msg
        obtain ⟨rc', e'⟩ := p
        by_cases h1 : rc' ≠ -1
        · simp [libc_call, h1]
        · by_cases h2 : e' = EINTR
          · simpa [libc_call, h1, h2] using ih msg
          · simp [libc_call, h1, h2]

/-- Witness: C5 with two EINTR interruptions followed by a successful return
of 5, and with two interruptions followed by failure with errno 9. -/
theorem C5_libc_call_retry_policy_witness :
    ((5 : Int) ≠ -1) ∧
    libc_call (fun _ => "strerror") (List.replicate 2 (-1, EINTR) ++
      (5, 0) :: []) = some (.ret 5) ∧
    ((9 : Nat) ≠ EINTR) ∧
    libc_call (fun _ => "strerror") (List.replicate 2 (-1, EINTR) ++
      (-1, 9) :: []) = some (.raised 9 "strerror") :=
  ⟨by decide,
    (C5_libc_call_retry_policy (fun _ => "strerror") 2 5 0 []).2.1 (by decide),
    by decide,
    (C5_libc_call_retry_policy (fun _ => "strerror") 2 (-1) 9 []).2.2.1
      (by decide)⟩

/-! ## The read path of the INotify handle -/

/-- Python exceptions that the modelled read path can raise. -/
inductive PyExc where
  | valueError (msg : String)
  | osError (errno : Nat)
  | structError
deriving DecidableEq, Repr

/-- Outcome of the `os.fstat(self.fileno())` probe inside `_readall`:
`success` when the descriptor is open, `osError e` when `fstat` raises
`OSError` with errno `e` (EBADF for a closed descriptor), `valueError msg`
when `self.fileno()` itself raises (the `FileIO` was marked closed, message
"I/O operation on closed file"). -/
inductive FstatOutcome where
  | success
  | osError (errno : Nat)
  | valueError (msg : String)
deriving DecidableEq, Repr

/-- Environment of one `_readall` call: the FIONREAD result, the `closed`
flag of the `FileIO`, the fstat probe outcome, and the raw
`super(FileIO, self).read(n)` behaviour. -/
structure ReadallWorld where
  bytesAvail : Nat
  closedFlag : Bool
  fstat : FstatOutcome
  rawRead : Nat → Except PyExc (List Nat)

/-- Test whether the second list begins with the first. -/
def startsWith : List Char → List Char → Bool
  | [], _ => true
  | _ :: _, [] => false
  | b :: p, a :: l => a == b && startsWith p l

/-- Python's `in` on strings, as lists of characters: `containsSub pat l`
holds when `pat` occurs contiguously inside `l`. -/
def containsSub (pat : List Char) : List Char → Bool
  | [] => startsWith pat []
  | a :: rest => startsWith pat (a :: rest) || containsSub pat rest

/-- Size selection and error logic of `INotify._readall` of
`src/inotify_simple.py` (lines 212-231), up to the raw read:

    bytes_avail = c_int()
    ioctl(self, FIONREAD, bytes_avail)
    value_to_read = bytes_avail.value
    if value_to_read == 0 and not self.closed:
        try:
            os.fstat(self.fileno())
            raise ValueError('Bug: read will fail {}'.format(self.closed))
        except (OSError, IOError) as ex:
            if ex.errno != errno.EBADF:
                raise
            value_to_read = 1
        except ValueError as ex:
            if 'I/O operation on closed file' not in str(ex):
                raise
            value_to_read = 1

`Except.ok n` means control falls through to
`parse_events(super(FileIO, self).read(n))`; `Except.error` is a raised
exception. -/
def readallPlan (bytesAvail : Nat) (closedFlag : Bool)
    (fstat : FstatOutcome) : Except PyExc Nat :=
  if bytesAvail = 0 ∧ closedFlag = false then
    match fstat with
    | .success =>
        -- fstat succeeded, so the code itself raises
        -- ValueError('Bug: read will fail False'), which the ValueError
        -- handler re-raises after its substring test
        if containsSub "I/O operation on closed file".toList
            "Bug: read will fail False".toList then
          Except.ok 1
        else Except.error (.valueError "Bug: read will fail False")
    | .osError e =>
        if e ≠ EBADF then Except.error (.osError e) else Except.ok 1
    | .valueError msg =>
        if ¬ containsSub "I/O operation on closed file".toList msg.toList then
          Except.error (.valueError msg)
        else Except.ok 1
  else Except.ok bytesAvail

/-- The raw read of `n` bytes followed by `parse_events`, ending `_readall`. -/
def readAndParse (w : ReadallWorld) (n : Nat) : Except PyExc (List Event) :=
  match w.rawRead n with
  | .error e => .error e
  | .ok data =>
      match parse_events data with
      | none => .error .structError
      | some evs => .ok evs

/-- Model of `INotify._readall` (lines 212-231). -/
def INotify.readall (w : ReadallWorld) : Except PyExc (List Event) :=
  match readallPlan w.bytesAvail w.closedFlag w.fstat with
  | .error e => .error e
  | .ok n => readAndParse w n

/-- Banker's rounding of `t / 1000` for an integer number of milliseconds:
the value of Python's `int(round(t / 1000.0))` (the relevant values are
exactly representable as floats, and `round` is round-half-to-even). -/
def pyRoundMilli (t : Int) : Int :=
  if t % 1000 < 500 then t / 1000
  else if 500 < t % 1000 then t / 1000 + 1
  else if (t / 1000) % 2 = 0 then t / 1000
  else t / 1000 + 1

/-- Wait bound, in milliseconds, of the `_read_lock.acquire` call performed
by `read` (lines 180-187).  `read(timeout=None)` calls `acquire()`, an
unbounded blocking acquire (`none`).  Otherwise the code calls
`acquire(int(round(timeout / 1000.0)))`: the single positional argument is
the `blocking` flag of `threading.Lock.acquire(blocking=True, timeout=-1)`,
so argument 0 is a non-blocking attempt (bound `some 0`) and any nonzero
argument blocks with the default `timeout=-1`, i.e. without any deadline
(`none`). -/
def lockWaitBudget : Option Int → Option Int
  | none => none
  | some t => if pyRoundMilli t = 0 then some 0 else none

/-- Environment of one `read` call: whether a non-blocking lock acquire
succeeds, the value `round(monotonic() - t0)` observed after the acquire,
whether `poll(t)` reports readiness within `t` ms, and the `_readall`
environment. -/
structure ReadWorld where
  lockFree : Bool
  elapsedRound : Int
  pollReady : Int → Bool
  w : ReadallWorld

/-- Result of a `read` call: the returned value or raised exception, the
millisecond argument of the `poll` call when one was made (`some none` is a
`poll()` without timeout), and the `read_delay` slept, if any. -/
structure ReadResult where
  outcome : Except PyExc (List Event)
  polledMs : Option (Option Int)
  sleptMs : Option Int

/-- Tail of `read` after readiness was signalled (lines 206-208): the
optional coalescing sleep, then `_readall`. -/
def INotify.readReady (env : ReadWorld) (polled : Option (Option Int))
    (read_delay : Option Int) : ReadResult :=
  match read_delay with
  | some d => ⟨INotify.readall env.w, polled, some d⟩
  | none => ⟨INotify.readall env.w, polled, none⟩

/-- Poll phase of `read` (lines 198-203), entered holding the lock with the
remaining timeout:

    if timeout is None:
        self._poller.poll()
    elif not self._poller.poll(max(timeout, 0)):
        return []

`poll()` without arguments returns only once events have arrived. -/
def INotify.readLocked (env : ReadWorld) (timeout : Option Int)
    (read_delay : Option Int) : ReadResult :=
  match timeout with
  | none => INotify.readReady env (some none) read_delay
  | some t =>
      if env.pollReady (max t 0) then
        INotify.readReady env (some (some (max t 0))) read_delay
      else ⟨.ok [], some (some (max t 0)), none⟩

/-- Model of `INotify.read` of `src/inotify_simple.py` (lines 180-210):

    if timeout is None:
        if not self._read_lock.acquire():
            return []
    else:
        t0 = monotonic()
        if not self._read_lock.acquire(int(round(timeout / 1000.0))):
            return []
        timeout -= (round(monotonic() - t0) * 1000)

followed by the poll/delay/readall phases.  `acquire()` and any
`acquire(n)` with `n ≠ 0` block until the lock is held (returning True), so
only the `n = 0` non-blocking case can return the empty list here. -/
def INotify.read (env : ReadWorld) (timeout : Option Int)
    (read_delay : Option Int) : ReadResult :=
  match timeout with
  | none => INotify.readLocked env none read_delay
  | some t =>
      if pyRoundMilli t = 0 then
        if env.lockFree then
          INotify.readLocked env (some (t - env.elapsedRound * 1000))
            read_delay
        else ⟨.ok [], none, none⟩
      else
        INotify.readLocked env (some (t - env.elapsedRound * 1000)) read_delay

/-- C6 (code defect): `read` passes `int(round(timeout / 1000.0))` as the
positional `blocking` argument of `Lock.acquire`, not as its `timeout`
argument.  For every timeout above 500 ms the rounded value is nonzero, so
the acquire blocks with `Lock.acquire`'s default deadline of -1 — an
unbounded wait, not one bounded by the caller's timeout; for timeouts of at
most 500 ms it is a non-blocking attempt (bound 0).  No positive timeout
value yields a lock wait bounded by that same timeout. -/
theorem C6_lock_wait_not_timeout_bounded (t : Int) :
    (500 < t → lockWaitBudget (some t) = none) ∧
    (0 ≤ t → t ≤ 500 → lockWaitBudget (some t) = some 0) := by
  refine ⟨fun h => ?_, fun h0 h5 => ?_⟩
  · have hne : pyRoundMilli t ≠ 0 := by
      unfold pyRoundMilli; split_ifs <;> omega
    simp [lockWaitBudget, hne]
  · have heq : pyRoundMilli t = 0 := by
      unfold pyRoundMilli; split_ifs <;> omega
    simp [lockWaitBudget, heq]

/-- Witness: C6 at the concrete timeouts 1000 ms (unbounded lock wait) and
400 ms (non-blocking attempt). -/
theorem C6_lock_wait_not_timeout_bounded_witness :
    lockWaitBudget (some 1000) = none ∧ lockWaitBudget (some 400) = some 0 :=
  ⟨(C6_lock_wait_not_timeout_bounded 1000).1 (by decide),
    (C6_lock_wait_not_timeout_bounded 400).2 (by decide) (by decide)⟩

/-- C7: `read(timeout=0)` on an uncontended open handle with no pending
events performs a non-blocking `poll(0)`, returns the empty list
successfully, performs no sleep, and raises nothing. -/
theorem C7_read_timeout_zero (env : ReadWorld) (rd : Option Int)
    (hlock : env.lockFree = true) (hfast : 0 ≤ env.elapsedRound)
    (hnoev : env.pollReady 0 = false) :
    INotify.read env (some 0) rd =
      ⟨Except.ok [], some (some 0), none⟩ := by
  have h0 : pyRoundMilli 0 = 0 := by decide
  have hm : max (-(env.elapsedRound * 1000)) 0 = 0 := by
    have : 0 ≤ env.elapsedRound * 1000 := by positivity
    omega
  simp [INotify.read, INotify.readLocked, h0, hlock, hm, hnoev]

/-- Witness: C7 at a fully concrete environment. -/
theorem C7_read_timeout_zero_witness :
    INotify.read ⟨true, 0, fun _ => false, ⟨0, false, .success,
        fun _ => Except.ok []⟩⟩ (some 0) none =
      ⟨Except.ok [], some (some 0), none⟩ :=
  C7_read_timeout_zero _ none rfl (by decide) rfl

/-- C8 counterexample: with zero bytes available and the descriptor still
open (the `closed` flag unset and `os.fstat` succeeding), `_readall` does
not treat the lost race as zero events — it raises
`ValueError('Bug: read will fail False')` to the caller. -/
theorem C8_counterexample_open_drained_raises :
    INotify.readall ⟨0, false, .success, fun _ => Except.ok []⟩ =
      .error (.valueError "Bug: read will fail False") := by
  rfl

/-- C8 amended: when the bytes-available query reports zero, `_readall`
raises a ValueError if the descriptor is genuinely open (fstat succeeds);
when the descriptor is closed it proceeds to the raw read so the OS surfaces
the authoritative error: a read of 1 byte after fstat fails with EBADF or
after `fileno()` raises the closed-file ValueError, a read of 0 bytes when
the handle's `closed` flag is already set; any other fstat OSError, and any
ValueError without the closed-file text, are re-raised. -/
theorem C8_amended_readall_zero_bytes (w : ReadallWorld)
    (h0 : w.bytesAvail = 0) :
    (w.closedFlag = false → w.fstat = .success →
      INotify.readall w = .error (.valueError "Bug: read will fail False")) ∧
    (w.closedFlag = false → w.fstat = .osError EBADF →
      INotify.readall w = readAndParse w 1) ∧
    (w.closedFlag = false → ∀ e, e ≠ EBADF → w.fstat = .osError e →
      INotify.readall w = .error (.osError e)) ∧
    (w.closedFlag = false → ∀ msg,
      containsSub "I/O operation on closed file".toList msg.toList = true →
      w.fstat = .valueError msg → INotify.readall w = readAndParse w 1) ∧
    (w.closedFlag = false → ∀ msg,
      containsSub "I/O operation on closed file".toList msg.toList = false →
      w.fstat = .valueError msg →
      INotify.readall w = .error (.valueError msg)) ∧
    (w.closedFlag = true → INotify.readall w = readAndParse w 0) := by
  obtain ⟨ba, cf, fs, rr⟩ := w
  simp only at h0
  subst h0
  have hbug : containsSub "I/O operation on closed file".toList
      "Bug: read will fail False".toList = false := by decide
  refine ⟨?_, ?_, ?_, ?_, ?_, ?_⟩
  · intro hcf hfs
    simp only at hcf hfs
    subst hcf; subst hfs
    rfl
  · intro hcf hfs
    simp only at hcf hfs
    subst hcf; subst hfs
    simp [INotify.readall, readallPlan, EBADF]
  · intro hcf e he hfs
    simp only at hcf hfs
    subst hcf; subst hfs
    simp [INotify.readall, readallPlan, he]
  · intro hcf msg hmsg hfs
    simp only at hcf hfs
    subst hcf; subst hfs
    simp only [INotify.readall, readallPlan]
    rw [hmsg]
    rfl
  · intro hcf msg hmsg hfs
    simp only at hcf hfs
    subst hcf; subst hfs
    simp only [INotify.readall, readallPlan]
    rw [hmsg]
    rfl
  · intro hcf
    simp only at hcf
    subst hcf
    simp [INotify.readall, readallPlan]

/-- Witness: C8 at a world whose handle is flag-closed; `_readall` performs
the raw zero-byte read anyway and the closed-file error from the read call
is surfaced. -/
theorem C8_amended_readall_zero_bytes_witness :
    INotify.readall ⟨0, true, .success,
        fun _ => Except.error (.valueError "I/O operation on closed file")⟩ =
      .error (.valueError "I/O operation on closed file") := by
  have h := (C8_amended_readall_zero_bytes ⟨0, true, .success,
      fun _ => Except.error (.valueError "I/O operation on closed file")⟩
      rfl).2.2.2.2.2 rfl
  rw [h]
  rfl
